import Mathlib

/-!
Verification of the gitmanager course-configuration engine.

This file gives a shallow embedding of the configuration resolution engine
of the repository (src/access/config.py and src/access/course.py) and proves
properties of it.  Python dictionaries are modelled as association lists with
pairwise-distinct keys (a Python dict cannot hold a key twice), parsed
JSON/YAML values as the inductive type `JVal`, filesystem and collaborator
effects as explicit function parameters, and raised exceptions as `Except`
results.
-/

namespace GitManager

/-- A parsed JSON/YAML value, as produced by `json.load` / `yaml.safe_load`. -/
inductive JVal where
  | null
  | bool (b : Bool)
  | num (n : Int)
  | str (s : String)
  | arr (xs : List JVal)
  | obj (kvs : List (String × JVal))
deriving Inhabited

/-- A Python dict with `JVal` values, as an insertion-ordered association list. -/
abbrev Dict := List (String × JVal)

/-- Association-list lookup: `d[k]` / `d.get(k)` for a Python dict `d`. -/
def alookup {α : Type} (k : String) : List (String × α) → Option α
  | [] => none
  | (k2, v) :: rest => if k2 = k then some v else alookup k rest

/-- Association-list store `d[k] = v`: replaces the value at `k` in place if
`k` is present, otherwise appends the binding, mirroring how assignment to a
Python dict keeps the insertion position of an existing key. -/
def aset {α : Type} (d : List (String × α)) (k : String) (v : α) : List (String × α) :=
  match d with
  | [] => [(k, v)]
  | (k2, v2) :: rest => if k2 = k then (k, v) :: rest else (k2, v2) :: aset rest k v

/-- The keys of a dict, in insertion order. -/
def keysOf {α : Type} (d : List (String × α)) : List String := d.map Prod.fst

/-- `d.update(nd)` for Python dicts: every binding of `nd` is stored into `d`. -/
def dupdate (d : Dict) (nd : Dict) : Dict :=
  nd.foldl (fun acc p => aset acc p.1 p.2) d

theorem alookup_aset_self {α : Type} (d : List (String × α)) (k : String) (v : α) :
    alookup k (aset d k v) = some v := by
  induction d with
  | nil => simp [aset, alookup]
  | cons p rest ih =>
    obtain ⟨k2, v2⟩ := p
    by_cases h : k2 = k
    · subst h; simp [aset, alookup]
    · simp [aset, alookup, h, ih]

theorem alookup_aset_ne {α : Type} (d : List (String × α)) (k k2 : String) (v : α)
    (h : k2 ≠ k) : alookup k2 (aset d k v) = alookup k2 d := by
  induction d with
  | nil => simp [aset, alookup, Ne.symm h]
  | cons p rest ih =>
    obtain ⟨k3, v3⟩ := p
    by_cases h3 : k3 = k
    · subst h3
      simp [aset, alookup, Ne.symm h, h]
    · simp [aset, alookup, h3, ih]

theorem keysOf_aset {α : Type} (d : List (String × α)) (k : String) (v : α) :
    keysOf (aset d k v) = if k ∈ keysOf d then keysOf d else keysOf d ++ [k] := by
  induction d with
  | nil => simp [aset, keysOf]
  | cons p rest ih =>
    obtain ⟨k2, v2⟩ := p
    by_cases h : k2 = k
    · subst h; simp [aset, keysOf]
    · simp only [aset, if_neg h, keysOf, List.map_cons, List.mem_cons]
      simp only [keysOf] at ih
      rw [ih]
      by_cases hk : k ∈ List.map Prod.fst rest
      · simp [hk]
      · simp [hk, Ne.symm h]

theorem aset_of_not_mem {α : Type} (d : List (String × α)) (k : String) (v : α)
    (h : k ∉ keysOf d) : aset d k v = d ++ [(k, v)] := by
  induction d with
  | nil => simp [aset]
  | cons p rest ih =>
    obtain ⟨k2, v2⟩ := p
    simp only [keysOf, List.map_cons, List.mem_cons] at h
    push_neg at h
    simp [aset, Ne.symm h.1, ih h.2]

/-! ## The validated course tree (src/access/course.py)

`Chapter`, `Exercise`, `LTIExercise` and `ExerciseCollection` all extend
`Item`, which extends `Parent`; every such node carries a `key`, a `category`
and a recursive `children` list.  Only those three fields take part in the
key/category validators, so one node type suffices here. -/

inductive Item where
  | mk (key : String) (category : String) (children : List Item)

def Item.key : Item → String
  | .mk k _ _ => k

def Item.category : Item → String
  | .mk _ c _ => c

def Item.children : Item → List Item
  | .mk _ _ cs => cs

/-- A course `Module` (src/access/course.py, class Module).  Its other fields
(name, status, dates, ...) play no part in the key and category validators. -/
structure Module where
  key : String
  children : List Item

/-- `Parent.child_keys` (src/access/course.py lines 103-109): for each child,
its key followed by the keys of its descendants. -/
def child_keys : List Item → List String
  | [] => []
  | .mk k _ cs :: rest => k :: (child_keys cs ++ child_keys rest)

/-- `Parent.child_categories` (src/access/course.py lines 95-101).  The source
builds a set with `categories.add(c.category)` for each child `c` and then
evaluates `categories.union(c.child_categories())` WITHOUT using the returned
set (`set.union` is pure and the result is not assigned), so only the direct
children contribute; descendants deeper in the tree are dropped.  The list
returned here has exactly the members of that set. -/
def child_categories : List Item → List String
  | [] => []
  | c :: rest => c.category :: child_categories rest

/-- Validation errors raised while constructing a `Course`. -/
inductive VErr where
  | duplicateModuleKey (k : String)
  | categoryNotFound (c : String)
  | duplicateItemKeys
deriving Repr, DecidableEq

/-- Helper for `validate_module_keys`: the accumulating `keys` list. -/
def validate_module_keys_from (seen : List String) : List Module → Except VErr Unit
  | [] => .ok ()
  | m :: rest =>
    if m.key ∈ seen then .error (.duplicateModuleKey m.key)
    else validate_module_keys_from (seen ++ [m.key]) rest

/-- `Course.validate_module_keys` (src/access/course.py lines 315-322). -/
def validate_module_keys (modules : List Module) : Except VErr Unit :=
  validate_module_keys_from [] modules

/-- `Course.validate_categories` (src/access/course.py lines 324-330): for
every module, every category in `m.child_categories()` must be a declared
category key.  Which missing category is named first depends on the Python
set iteration order; the raise/no-raise behaviour does not. -/
def validate_categories (categories : List String) : List Module → Except VErr Unit
  | [] => .ok ()
  | m :: rest =>
    match (child_categories m.children).find? (fun c => !(categories.contains c)) with
    | some c => .error (.categoryNotFound c)
    | none => validate_categories categories rest

/-- `Course.validate_keys` (src/access/course.py lines 332-347): module by
module, the keys of the module subtree are compared against their set; a
length mismatch means a duplicate.  Note that the `keys` list is rebuilt for
every module, so the comparison is per module. -/
def validate_keys : List Module → Except VErr Unit
  | [] => .ok ()
  | m :: rest =>
    let keys := child_keys m.children
    if keys.dedup.length ≠ keys.length then .error .duplicateItemKeys
    else validate_keys rest

/-- The validated `Course` model (src/access/course.py, class Course):
`categories` holds the keys of the declared category mapping. -/
structure Course where
  name : String
  modules : List Module
  categories : List String

/-- Course construction: the `modules` field validator runs first, then the
root validators in declaration order (`validate_categories`, `validate_keys`;
`validate_module_dates` only records warnings and cannot fail). -/
def course_validate (c : Course) : Except VErr Unit := do
  validate_module_keys c.modules
  validate_categories c.categories c.modules
  validate_keys c.modules

theorem dedup_length_eq_iff_nodup {l : List String} :
    l.dedup.length = l.length ↔ l.Nodup := by
  constructor
  · intro h
    have hsub : List.Sublist l.dedup l := List.dedup_sublist l
    exact List.dedup_eq_self.mp (hsub.eq_of_length h)
  · intro h
    rw [List.dedup_eq_self.mpr h]

/-- What `Parent.child_categories` is documented to return ("a set of
categories of children recursively"), and what claim C2 and the spec assume:
the categories of every item at every depth below the given children. -/
def child_categories_recursive : List Item → List String
  | [] => []
  | .mk _ c cs :: rest => c :: (child_categories_recursive cs ++ child_categories_recursive rest)

/-- C1 counterexample: a course whose two modules each contain an item with
key "ex1".  The claim says course construction raises a duplicate-key error,
but every validator passes, because `validate_keys` rebuilds its `keys` list
for each module and never compares keys across modules. -/
theorem c1_cross_module_duplicate_key_not_detected :
    course_validate
      { name := "c"
        modules := [{ key := "m1", children := [Item.mk "ex1" "hw" []] },
                    { key := "m2", children := [Item.mk "ex1" "hw" []] }]
        categories := ["hw"] } = .ok ()
    ∧ "ex1" ∈ child_keys [Item.mk "ex1" "hw" []] := by
  constructor
  · simp +decide [course_validate, validate_module_keys, validate_module_keys_from,
      validate_categories, validate_keys, child_keys, child_categories, Item.category]
    rfl
  · simp [child_keys]

/-- C1 as amended: the duplicate-learning-object-key error is raised exactly
when some single module's subtree contains two items with the same key, and a
course whose item keys are pairwise distinct over the whole tree passes the
duplicate-key check. -/
theorem c1_duplicate_keys_per_module (ms : List Module) :
    (validate_keys ms = .ok () ↔ ∀ m ∈ ms, (child_keys m.children).Nodup)
    ∧ ((ms.map (fun m => child_keys m.children)).flatten.Nodup →
        validate_keys ms = .ok ()) := by
  have hiff : validate_keys ms = .ok () ↔ ∀ m ∈ ms, (child_keys m.children).Nodup := by
    induction ms with
    | nil => simp [validate_keys]
    | cons m rest ih =>
      by_cases h : (child_keys m.children).dedup.length ≠ (child_keys m.children).length
      · simp only [validate_keys, if_pos h]
        constructor
        · intro hc; cases hc
        · intro hall
          exact absurd (dedup_length_eq_iff_nodup.mpr (hall m (by simp))) h
      · push_neg at h
        simp only [validate_keys, if_neg (not_not_intro h)]
        rw [ih]
        constructor
        · intro hall
          intro m2 hm2
          rcases List.mem_cons.mp hm2 with h2 | h2
          · subst h2; exact dedup_length_eq_iff_nodup.mp h
          · exact hall m2 h2
        · intro hall m2 hm2
          exact hall m2 (List.mem_cons_of_mem _ hm2)
  refine ⟨hiff, fun hflat => hiff.mpr ?_⟩
  intro m hm
  exact List.Nodup.sublist
    (List.sublist_flatten_of_mem
      (List.mem_map_of_mem (fun m => child_keys m.children) hm)) hflat

/-- Witness for `c1_duplicate_keys_per_module` at a concrete module list. -/
theorem c1_duplicate_keys_per_module_witness :
    validate_keys [{ key := "m1", children := [Item.mk "a" "hw" []] },
                   { key := "m2", children := [Item.mk "b" "hw" []] }] = .ok () :=
  (c1_duplicate_keys_per_module _).2 (by simp [child_keys])

/-- C2: the course declares only category "hw", the module's direct child has
category "hw", but its grandchild item has the undeclared category "lab".
The claim (and the docstring of `child_categories`) says construction must
raise an undeclared-category error; the code accepts the course, because
`child_categories` discards the result of the recursive union call. -/
theorem c2_grandchild_category_not_checked :
    course_validate
      { name := "c"
        modules := [{ key := "m", children := [Item.mk "e1" "hw" [Item.mk "e2" "lab" []]] }]
        categories := ["hw"] } = .ok ()
    ∧ "lab" ∈ child_categories_recursive [Item.mk "e1" "hw" [Item.mk "e2" "lab" []]]
    ∧ "lab" ∉ ["hw"]
    ∧ "lab" ∉ child_categories [Item.mk "e1" "hw" [Item.mk "e2" "lab" []]] := by
  refine ⟨?_, ?_, by simp, ?_⟩
  · simp +decide [course_validate, validate_module_keys, validate_module_keys_from,
      validate_categories, validate_keys, child_keys, child_categories, Item.category]
    rfl
  · simp [child_categories_recursive]
  · simp [child_categories, Item.category]

/-! ## The cache freshness probe (src/access/config.py)

`CourseConfig.get` (lines 240-247) and `CourseConfig.exercise_config`
(lines 160-167) both start with:

    if key in cache:
        entry = cache[key]
        try:
            if entry.mtime >= os.path.getmtime(entry.file):
                return entry
        except OSError:
            pass
    ...fall through to the load path...

`os.path.getmtime` is modelled as a function from path to `Option Int`
(`none` models a raised `OSError`, for instance for a missing file). -/

/-- A cached record, reduced to the fields the freshness probe reads. -/
structure CachedEntry where
  file : String
  mtime : Int
deriving Repr, DecidableEq

/-- What the cache-check prefix of `get` / `exercise_config` decides. -/
inductive CacheStep where
  | return_cached
  | reload
deriving Repr, DecidableEq

/-- The cache-check prefix of `CourseConfig.get` (src/access/config.py lines
240-247): `cached` is `_courses.get(course_key)`.  On `OSError` the handler
body is `pass`, so control continues into the load path below the `try`. -/
def course_get_cache_step (cached : Option CachedEntry) (getmtime : String → Option Int) :
    CacheStep :=
  match cached with
  | some config =>
    match getmtime config.file with
    | some t => if t ≤ config.mtime then .return_cached else .reload
    | none => .reload
  | none => .reload

/-- The cache-check prefix of `CourseConfig.exercise_config` (src/access/
config.py lines 160-167), identical in shape to the course one. -/
def exercise_config_cache_step (cached : Option CachedEntry) (getmtime : String → Option Int) :
    CacheStep :=
  match cached with
  | some exercise_root =>
    match getmtime exercise_root.file with
    | some t => if t ≤ exercise_root.mtime then .return_cached else .reload
    | none => .reload
  | none => .reload

/-- C3 counterexample: a cached entry exists and the mtime probe of its file
fails (`OSError`), yet both cache checks fall through to the load path
instead of returning the cached entry as the claim states. -/
theorem c3_probe_error_falls_through_to_reload :
    course_get_cache_step (some ⟨"index.yaml", 5⟩) (fun _ => none) = .reload
    ∧ exercise_config_cache_step (some ⟨"ex.yaml", 5⟩) (fun _ => none) = .reload
    ∧ CacheStep.reload ≠ CacheStep.return_cached := by
  exact ⟨rfl, rfl, by decide⟩

/-- C3 as amended: the cached entry is returned exactly when the mtime probe
succeeds and the recorded mtime is at least the probed one; when the probe
raises `OSError` the exception is swallowed and a reload is attempted (the
error never propagates out of the cache check). -/
theorem c3_cache_step_characterization (cached : Option CachedEntry)
    (getmtime : String → Option Int) :
    (course_get_cache_step cached getmtime = .return_cached ↔
      ∃ c t, cached = some c ∧ getmtime c.file = some t ∧ t ≤ c.mtime)
    ∧ (∀ c, cached = some c → getmtime c.file = none →
        course_get_cache_step cached getmtime = .reload)
    ∧ exercise_config_cache_step cached getmtime = course_get_cache_step cached getmtime := by
  refine ⟨?_, ?_, ?_⟩
  · constructor
    · intro h
      match hc : cached with
      | none => simp [course_get_cache_step] at h
      | some c =>
        match hm : getmtime c.file with
        | none => simp [course_get_cache_step, hm] at h
        | some t =>
          by_cases hle : t ≤ c.mtime
          · exact ⟨c, t, rfl, hm, hle⟩
          · simp [course_get_cache_step, hm, hle] at h
    · rintro ⟨c, t, hc, hm, hle⟩
      subst hc
      simp [course_get_cache_step, hm, hle]
  · intro c hc hm
    subst hc
    simp [course_get_cache_step, hm]
  · cases cached with
    | none => rfl
    | some c =>
      simp only [course_get_cache_step, exercise_config_cache_step]

/-- Witness for `c3_cache_step_characterization` at concrete inputs. -/
theorem c3_cache_step_characterization_witness :
    course_get_cache_step (some ⟨"index.yaml", 7⟩) (fun _ => some 3) = .return_cached :=
  (c3_cache_step_characterization (some ⟨"index.yaml", 7⟩) (fun _ => some 3)).1.mpr
    ⟨⟨"index.yaml", 7⟩, 3, rfl, rfl, by decide⟩

/-! ## Default language derivation (src/access/config.py lines 350-357)

    l = data.get('language')
    if type(l) == list:
        data['lang'] = l[0]
    elif l == str:
        data['lang'] = l
    return data.get('lang', DEFAULT_LANG)

`l == str` compares the parsed value with the builtin type object `str`,
which is never true for data coming out of a JSON/YAML parser, so a string
`language` never reaches `data['lang']`. -/

def DEFAULT_LANG : String := "en"

/-- Python runtime errors that the modelled fragments can raise. -/
inductive PyErr where
  | indexError
  | attributeError
  | typeError
  | keyError
deriving Repr, DecidableEq

/-- `CourseConfig._default_lang`; returns the possibly mutated `data`
together with the returned value.  An empty `language` list raises
`IndexError` at `l[0]`. -/
def _default_lang (data : Dict) : Except PyErr (Dict × JVal) :=
  match alookup "language" data with
  | some (.arr l) =>
    match l with
    | [] => .error .indexError
    | x :: _ =>
      let data2 := aset data "lang" x
      .ok (data2, (alookup "lang" data2).getD (.str DEFAULT_LANG))
  | _ =>
    -- the `elif l == str` branch never fires for parsed data, so the
    -- function falls through to the final `data.get('lang', DEFAULT_LANG)`
    .ok (data, (alookup "lang" data).getD (.str DEFAULT_LANG))

/-- C4: the list and absent cases behave as claimed, but a string-valued
`language` field is ignored (the code compares the value against the type
object `str` instead of testing `type(l) == str`), so `{"language": "fi"}`
yields the fallback "en" where the claim requires "fi". -/
theorem c4_string_language_ignored :
    _default_lang [("language", .str "fi")] = .ok ([("language", .str "fi")], .str "en")
    ∧ .str "en" ≠ JVal.str "fi"
    ∧ _default_lang [("language", .arr [.str "sv", .str "en"])]
        = .ok ([("language", .arr [.str "sv", .str "en"]), ("lang", .str "sv")], .str "sv")
    ∧ _default_lang [("name", .str "n")] = .ok ([("name", .str "n")], .str "en") := by
  refine ⟨rfl, by simp, rfl, rfl⟩

/-! ## Include resolution (src/access/config.py, ConfigParser._include)

External collaborators are passed in as an environment:
`get_config` is the file locator (ConfigParser.get_config), `load ext s` is
what the format loader `FORMATS[ext]` returns WHEN CALLED WITH THE STRING
`s` (the source calls `loader(include_file)` and `loader(rendered)`, so the
loader always receives a string argument, never an open file), and `render`
is the Django template renderer.  The non-template branch of the source
never opens the include file, which is why no file-content reader appears
in the environment at all. -/

/-- Python truthiness of a parsed value (`if include_data["force"]:`). -/
def truthy : JVal → Bool
  | .null => false
  | .bool b => b
  | .num n => n ≠ 0
  | .str s => s ≠ ""
  | .arr xs => !xs.isEmpty
  | .obj kvs => !kvs.isEmpty

/-- The characters after the last dot of a path, if any. -/
def afterLastDot (cs : List Char) : Option (List Char) :=
  match cs with
  | [] => none
  | c :: rest =>
    match afterLastDot rest with
    | some t => some t
    | none => if c = '.' then some rest else none

/-- `os.path.splitext(p)[1][1:]`: the extension without its dot.  Faithful
for the paths arising here, whose final component carries the extension. -/
def extOf (p : String) : String :=
  match afterLastDot p.data with
  | some t => ⟨t⟩
  | none => ""

/-- `os.path.join(a, b)` for the cases arising here: an absolute second
component (first character "/") discards the first component. -/
def pjoin (a b : String) : String :=
  if b.data.head? = some '/' then b else if a = "" then b else a ++ "/" ++ b

/-- Drop the first `n` characters of a string (`s[n:]`). -/
def dropChars (n : Nat) (s : String) : String := ⟨s.data.drop n⟩

/-- Errors raised inside `_include` (all surface as ConfigError or as a
Python runtime error in the source). -/
inductive IncErr where
  | noConfig (path : String)
  | multipleConfig (path : String)
  | requiredFieldMissing (name : String) (file : String)
  | keyCollision (key : String) (oldVal : JVal) (targetFile : String)
      (newVal : JVal) (includeFile : String)
  | loaderError
  | pyError (e : PyErr)

/-- The collaborators used by `_include`. -/
structure IncludeEnv where
  get_config : String → Except IncErr String
  load : String → String → Except IncErr JVal
  render : String → JVal → String
  courses_path : String

/-- The non-`force` merge loop of `_include` (src/access/config.py lines
488-500): each new key must be absent from the accumulated result, else a
ConfigError is raised naming the key, both values and both files. -/
def merge_no_force (target_file include_file : String) :
    Dict → List (String × JVal) → Except IncErr Dict
  | acc, [] => .ok acc
  | acc, (k, v) :: rest =>
    match alookup k acc with
    | none => merge_no_force target_file include_file (aset acc k v) rest
    | some old => .error (.keyCollision k old target_file v include_file)

/-- How `_include` obtains `new_data` for one entry (src/access/config.py
lines 472-484): with a `template_context` the rendered string is fed to the
loader, otherwise the loader is handed the PATH STRING `include_file` itself
(`new_data = loader(include_file)`); the file the path names is never
opened in this branch. -/
def includeLoadNewData (env : IncludeEnv) (course_dir : String)
    (e : List (String × JVal)) (include_file : String) : Except IncErr JVal :=
  match alookup "template_context" e with
  | some ctx =>
    let template_name :=
      dropChars (env.courses_path.length + 1) (pjoin course_dir include_file)
    env.load (extOf include_file) (env.render template_name ctx)
  | none => env.load (extOf include_file) include_file

/-- The merge of one entry's `new_data` into the accumulator (src/access/
config.py lines 486-501): `force` overwrites with `return_data.update`, else
the collision-checking loop runs.  A non-dict `new_data` raises (TypeError
from `dict.update`, AttributeError from `.items()`). -/
def includeMerge (target_file include_file : String) (return_data : Dict)
    (force : Bool) (new_data : JVal) : Except IncErr Dict :=
  if force then
    match new_data with
    | .obj nd => .ok (dupdate return_data nd)
    | _ => .error (.pyError .typeError)
  else
    match new_data with
    | .obj nd => merge_no_force target_file include_file return_data nd
    | _ => .error (.pyError .attributeError)

/-- One iteration of the `for include_data in data["include"]` loop
(src/access/config.py lines 466-501). -/
def includeEntryStep (env : IncludeEnv) (target_file course_dir : String)
    (return_data : Dict) (entry : JVal) : Except IncErr Dict :=
  match entry with
  | .obj e =>
    match alookup "file" e with
    | none => .error (.requiredFieldMissing "file" target_file)
    | some (.str fstr) =>
      (env.get_config (pjoin course_dir fstr)).bind (fun include_file =>
        (includeLoadNewData env course_dir e include_file).bind (fun new_data =>
          includeMerge target_file include_file return_data
            (match alookup "force" e with
             | some v => truthy v
             | none => false)
            new_data))
    | some _ => .error (.pyError .typeError)
  | _ => .error (.pyError .typeError)

/-- `ConfigParser._include(data, target_file, course_dir)`: the accumulator
starts as `data.copy()` and each include entry is merged in list order.
Callers only invoke this when `"include" in data`; a non-list `include`
value is not something a real configuration contains and is modelled as a
TypeError. -/
def _include (env : IncludeEnv) (data : Dict) (target_file course_dir : String) :
    Except IncErr Dict :=
  match alookup "include" data with
  | some (.arr entries) =>
    entries.foldlM (fun acc e => includeEntryStep env target_file course_dir acc e) data
  | some _ => .error (.pyError .typeError)
  | none => .error (.pyError .keyError)

theorem alookup_eq_none_iff {α : Type} (d : List (String × α)) (k : String) :
    alookup k d = none ↔ k ∉ keysOf d := by
  induction d with
  | nil => simp [alookup, keysOf]
  | cons p rest ih =>
    obtain ⟨k2, v2⟩ := p
    by_cases h : k2 = k
    · subst h; simp [alookup, keysOf]
    · simp [alookup, keysOf, h, ih, Ne.symm h]

theorem alookup_append {α : Type} (a b : List (String × α)) (k : String) :
    alookup k (a ++ b) =
      match alookup k a with
      | some v => some v
      | none => alookup k b := by
  induction a with
  | nil => simp [alookup]
  | cons p rest ih =>
    obtain ⟨k2, v2⟩ := p
    by_cases h : k2 = k
    · subst h; simp [alookup]
    · simp [alookup, h, ih]

theorem keysOf_aset_superset {α : Type} (d : List (String × α)) (k : String) (v : α) :
    ∀ k2 ∈ keysOf d, k2 ∈ keysOf (aset d k v) := by
  intro k2 h2
  rw [keysOf_aset]
  by_cases h : k ∈ keysOf d
  · simp [h, h2]
  · simp [h, h2]

theorem keysOf_dupdate_superset (nd : Dict) :
    ∀ (d : Dict) (k : String), k ∈ keysOf d → k ∈ keysOf (dupdate d nd) := by
  induction nd with
  | nil => intro d k hk; simpa [dupdate] using hk
  | cons p rest ih =>
    intro d k hk
    have : dupdate d (p :: rest) = dupdate (aset d p.1 p.2) rest := by
      simp [dupdate, List.foldl]
    rw [this]
    exact ih _ _ (keysOf_aset_superset d p.1 p.2 k hk)

theorem merge_no_force_fresh (tf incf : String) (nd : List (String × JVal)) :
    ∀ acc : Dict, (keysOf nd).Nodup → (∀ k ∈ keysOf nd, alookup k acc = none) →
    merge_no_force tf incf acc nd = .ok (acc ++ nd) := by
  induction nd with
  | nil => intro acc _ _; simp [merge_no_force]
  | cons p rest ih =>
    intro acc hnodup hfresh
    obtain ⟨k, v⟩ := p
    have hk : alookup k acc = none := hfresh k (by simp [keysOf])
    have hkeys : (keysOf ((k, v) :: rest)).Nodup := hnodup
    simp only [keysOf, List.map_cons, List.nodup_cons] at hkeys
    have hset : aset acc k v = acc ++ [(k, v)] :=
      aset_of_not_mem acc k v ((alookup_eq_none_iff acc k).mp hk)
    have hrest : ∀ k2 ∈ keysOf rest, alookup k2 (aset acc k v) = none := by
      intro k2 h2
      have hne : k2 ≠ k := fun h => hkeys.1 (h ▸ h2)
      rw [alookup_aset_ne acc k k2 v hne]
      refine hfresh k2 ?_
      simp only [keysOf, List.map_cons, List.mem_cons]
      right
      simpa [keysOf] using h2
    rw [merge_no_force, hk, ih (aset acc k v) hkeys.2 hrest, hset]
    simp

theorem merge_no_force_collision (tf incf : String) (nd : List (String × JVal)) :
    ∀ acc : Dict, (keysOf nd).Nodup → (∃ k ∈ keysOf nd, k ∈ keysOf acc) →
    ∃ k old v, alookup k acc = some old ∧ alookup k nd = some v ∧
      merge_no_force tf incf acc nd = .error (.keyCollision k old tf v incf) := by
  induction nd with
  | nil => intro acc _ h; simp [keysOf] at h
  | cons p rest ih =>
    intro acc hnodup hcoll
    obtain ⟨k, v⟩ := p
    have hkeys := hnodup
    simp only [keysOf, List.map_cons, List.nodup_cons] at hkeys
    match hk : alookup k acc with
    | some old =>
      refine ⟨k, old, v, hk, by simp [alookup], ?_⟩
      rw [merge_no_force, hk]
    | none =>
      have hknot : k ∉ keysOf acc := (alookup_eq_none_iff acc k).mp hk
      obtain ⟨k2, hk2nd, hk2acc⟩ := hcoll
      have hk2rest : k2 ∈ keysOf rest := by
        rcases (by simpa [keysOf] using hk2nd : k2 = k ∨ k2 ∈ keysOf rest) with h | h
        · exact absurd (h ▸ hk2acc) hknot
        · exact h
      have hcoll2 : ∃ k3 ∈ keysOf rest, k3 ∈ keysOf (aset acc k v) := by
        exact ⟨k2, hk2rest, keysOf_aset_superset acc k v k2 hk2acc⟩
      obtain ⟨k3, old, v3, hlook, hlookrest, hres⟩ := ih (aset acc k v) hkeys.2 hcoll2
      have hk3rest : k3 ∈ keysOf rest := by
        have := (alookup_eq_none_iff rest k3).not
        simp only [not_not] at this
        by_contra hcon
        rw [(alookup_eq_none_iff rest k3).mpr hcon] at hlookrest
        cases hlookrest
      have hne : k3 ≠ k := fun h => hkeys.1 (h ▸ hk3rest)
      refine ⟨k3, old, v3, ?_, ?_, ?_⟩
      · rw [← alookup_aset_ne acc k k3 v hne]; exact hlook
      · simp [alookup, Ne.symm hne, hlookrest]
      · rw [merge_no_force, hk]; exact hres

theorem merge_no_force_superset (tf incf : String) (nd : List (String × JVal)) :
    ∀ acc r : Dict, merge_no_force tf incf acc nd = .ok r →
    ∀ k ∈ keysOf acc, k ∈ keysOf r := by
  induction nd with
  | nil => intro acc r h; rw [merge_no_force] at h; cases h; exact fun k hk => hk
  | cons p rest ih =>
    intro acc r h
    obtain ⟨k2, v2⟩ := p
    rw [merge_no_force] at h
    match hk : alookup k2 acc with
    | some old => rw [hk] at h; cases h
    | none =>
      rw [hk] at h
      intro k hkk
      exact ih (aset acc k2 v2) r h k (keysOf_aset_superset acc k2 v2 k hkk)

theorem includeMerge_superset (tf incf : String) (acc : Dict) (force : Bool)
    (nv : JVal) (r : Dict) (h : includeMerge tf incf acc force nv = .ok r) :
    ∀ k ∈ keysOf acc, k ∈ keysOf r := by
  match nv with
  | .obj nd =>
    by_cases hf : force = true
    · simp only [includeMerge, if_pos hf] at h
      cases h; exact fun k hk => keysOf_dupdate_superset nd acc k hk
    · simp only [includeMerge, if_neg hf] at h
      exact merge_no_force_superset tf incf nd acc r h
  | .null | .bool _ | .num _ | .str _ | .arr _ =>
    by_cases hf : force = true
    · simp only [includeMerge, if_pos hf] at h; cases h
    · simp only [includeMerge, if_neg hf] at h; cases h

theorem includeEntryStep_superset (env : IncludeEnv) (tf cd : String)
    (acc : Dict) (e : JVal) (r : Dict) (h : includeEntryStep env tf cd acc e = .ok r) :
    ∀ k ∈ keysOf acc, k ∈ keysOf r := by
  rw [includeEntryStep.eq_def] at h
  split at h
  case h_2 => cases h
  case h_1 ed =>
    split at h
    · cases h
    case h_2 fstr heq =>
      match h2 : env.get_config (pjoin cd fstr) with
      | .error err => rw [h2] at h; simp [Except.bind] at h
      | .ok incf =>
        rw [h2] at h
        simp only [Except.bind] at h
        match h3 : includeLoadNewData env cd ed incf with
        | .error err => rw [h3] at h; simp [Except.bind] at h
        | .ok nv =>
          rw [h3] at h
          simp only [Except.bind] at h
          exact includeMerge_superset tf incf acc _ nv r h
    · cases h

theorem foldlM_include_superset (env : IncludeEnv) (tf cd : String) :
    ∀ (entries : List JVal) (acc r : Dict),
    List.foldlM (fun a e => includeEntryStep env tf cd a e) acc entries = .ok r →
    ∀ k ∈ keysOf acc, k ∈ keysOf r := by
  intro entries
  induction entries with
  | nil =>
    intro acc r h
    simp only [List.foldlM, pure, Except.pure] at h
    cases h; exact fun k hk => hk
  | cons e rest ih =>
    intro acc r h
    simp only [List.foldlM] at h
    match h1 : includeEntryStep env tf cd acc e with
    | .error err => rw [h1] at h; simp [Except.bind, Bind.bind] at h
    | .ok a2 =>
      rw [h1] at h
      simp only [Bind.bind, Except.bind] at h
      intro k hk
      exact ih a2 r h k (includeEntryStep_superset env tf cd acc e a2 h1 k hk)

/-- C5 environment: a locator resolving "course/b" to "course/b.yaml", and a
loader modelling what `yaml.safe_load` returns for the plain-scalar strings
that occur in this scenario: YAML parses a bare scalar such as a file path
to that very string.  The environment has no file-content reader because
the non-template branch of the source never opens the include file. -/
def c5_env : IncludeEnv where
  get_config := fun p => if p = "course/b" then .ok "course/b.yaml" else .error (.noConfig p)
  load := fun ext s => if ext = "yaml" then .ok (.str s) else .error .loaderError
  render := fun _ _ => ""
  courses_path := "courses"

/-- C5: host `{a: 1}` with include entry `{file: "b"}` (no template_context);
the claim says the content of b.yaml, `{b: 2}`, is parsed so that `b = 2`
joins the merged document.  Instead the loader is handed the path string
"course/b.yaml" (YAML parses it to a plain string) and the merge loop then
calls `.items()` on a str, raising AttributeError: no merged document is
ever produced. -/
theorem c5_include_parses_path_not_content :
    _include c5_env [("a", .num 1), ("include", .arr [.obj [("file", .str "b")]])]
        "course/index.yaml" "course"
      = .error (.pyError .attributeError)
    ∧ ∀ r : Dict,
        _include c5_env [("a", .num 1), ("include", .arr [.obj [("file", .str "b")]])]
          "course/index.yaml" "course" ≠ .ok r := by
  have h1 : _include c5_env
      [("a", .num 1), ("include", .arr [.obj [("file", .str "b")]])]
      "course/index.yaml" "course" = .error (.pyError .attributeError) := by
    rfl
  refine ⟨h1, fun r h => ?_⟩
  rw [h1] at h
  cases h

/-- C6: the merge policy of `_include` for a single include entry, with the
loaded document abstracted by the environment: `force` with a truthy value
overwrites unconditionally; otherwise any key already present in the
accumulator raises a ConfigError carrying the key, both values and both
file names, and fresh keys are appended; and every key of the host document
survives into any successful result (the host seeds the accumulator). -/
theorem c6_include_merge_policy (env : IncludeEnv) (data : Dict)
    (e : List (String × JVal)) (tf cd fstr incf : String) (nd : Dict)
    (hinc : alookup "include" data = some (.arr [.obj e]))
    (hfile : alookup "file" e = some (.str fstr))
    (htmpl : alookup "template_context" e = none)
    (hget : env.get_config (pjoin cd fstr) = .ok incf)
    (hload : env.load (extOf incf) incf = .ok (.obj nd))
    (hnodup : (keysOf nd).Nodup) :
    (∀ fv, alookup "force" e = some fv → truthy fv = true →
       _include env data tf cd = .ok (dupdate data nd))
    ∧ ((alookup "force" e = none ∨ ∃ fv, alookup "force" e = some fv ∧ truthy fv = false) →
        ((∀ k ∈ keysOf nd, alookup k data = none) →
           _include env data tf cd = .ok (data ++ nd))
        ∧ ((∃ k ∈ keysOf nd, k ∈ keysOf data) →
           ∃ k old v, alookup k data = some old ∧ alookup k nd = some v ∧
             _include env data tf cd = .error (.keyCollision k old tf v incf)))
    ∧ (∀ r : Dict, _include env data tf cd = .ok r → ∀ k ∈ keysOf data, k ∈ keysOf r) := by
  have hentry : includeEntryStep env tf cd data (.obj e) =
      includeMerge tf incf data
        (match alookup "force" e with
         | some v => truthy v
         | none => false) (.obj nd) := by
    rw [includeEntryStep.eq_def]
    simp only [hfile, hget, Except.bind, includeLoadNewData, htmpl, hload]
  have hstep : ∀ z : Except IncErr Dict,
      includeEntryStep env tf cd data (.obj e) = z → _include env data tf cd = z := by
    intro z hz
    rw [_include.eq_def, hinc]
    simp only [List.foldlM, hz]
    cases z with
    | error err => simp [Bind.bind, Except.bind]
    | ok a => simp [Bind.bind, Except.bind, pure, Except.pure]
  refine ⟨?_, ?_, ?_⟩
  · intro fv hfv htr
    refine hstep _ ?_
    rw [hentry, hfv]
    simp only [includeMerge, htr, if_true]
  · intro hor
    have hforce : (match alookup "force" e with
        | some v => truthy v
        | none => false) = false := by
      rcases hor with h | ⟨fv, hfv, hf⟩
      · rw [h]
      · rw [hfv]; exact hf
    have hmerge : includeEntryStep env tf cd data (.obj e) =
        merge_no_force tf incf data nd := by
      rw [hentry, hforce]
      simp only [includeMerge, Bool.false_eq_true, if_false]
    constructor
    · intro hfresh
      exact hstep _ (by rw [hmerge, merge_no_force_fresh tf incf nd data hnodup hfresh])
    · intro hcoll
      obtain ⟨k, old, v, hacc, hnd, hres⟩ :=
        merge_no_force_collision tf incf nd data hnodup
          (by
            obtain ⟨k, hk1, hk2⟩ := hcoll
            exact ⟨k, hk1, hk2⟩)
      exact ⟨k, old, v, hacc, hnd, hstep _ (by rw [hmerge, hres])⟩
  · intro r hr k hk
    rw [_include.eq_def, hinc] at hr
    exact foldlM_include_superset env tf cd [.obj e] data r hr k hk

/-- C6 witness environment: the loader yields the document `{b: 2}`. -/
def c6_env : IncludeEnv where
  get_config := fun _ => .ok "course/b.yaml"
  load := fun _ _ => .ok (.obj [("b", .num 2)])
  render := fun _ _ => ""
  courses_path := ""

/-- Witness for `c6_include_merge_policy` at a concrete host and entry. -/
theorem c6_include_merge_policy_witness :
    _include c6_env [("a", .num 1), ("include", .arr [.obj [("file", .str "b")]])]
        "t" "course"
      = .ok ([("a", .num 1), ("include", .arr [.obj [("file", .str "b")]])]
              ++ [("b", .num 2)]) :=
  ((c6_include_merge_policy c6_env
      [("a", .num 1), ("include", .arr [.obj [("file", .str "b")]])]
      [("file", .str "b")] "t" "course" "b" "course/b.yaml" [("b", .num 2)]
      rfl rfl rfl rfl rfl (by simp [keysOf])).2.1 (Or.inl rfl)).1
    (by
      intro k hk
      simp only [keysOf, List.map_cons, List.map_nil, List.mem_singleton] at hk
      subst hk
      rfl)

/-! ## ExerciseConfig.data_for_language

Modelled from src/access/course.py lines 27-46 (the copy in
src/access/config.py lines 41-62 is identical except that it reads the
default language off the owning course record instead of a field).
`data["lang"] = lang` mutates the stored variant dict in place, so the
function here returns the updated configuration next to its result. -/

/-- A language-variant set: language code → variant dict. -/
abbrev LangData := List (String × Dict)

/-- `ExerciseConfig` restricted to the fields `data_for_language` touches. -/
structure ExerciseConfig where
  data : LangData
  file : String
  mtime : Int
  ptime : Int
  default_lang : String

/-- The result of `data_for_language`: the whole variant set (sentinel
request "_root"), one variant dict, or the IndexError that
`list(self.data.values())[0]` raises on an empty set. -/
inductive DFLResult where
  | rootData (d : LangData)
  | variant (v : Dict)
  | indexError

/-- The loop `for lang in (lang, self.default_lang)`: the first candidate
that is a key of the variant set, with its variant.  A `None` request is
never a key of the (string-keyed) dict. -/
def firstHit (cfg : ExerciseConfig) (lang : Option String) : Option (String × Dict) :=
  match lang with
  | some l =>
    match alookup l cfg.data with
    | some d => some (l, d)
    | none =>
      match alookup cfg.default_lang cfg.data with
      | some d => some (cfg.default_lang, d)
      | none => none
  | none =>
    match alookup cfg.default_lang cfg.data with
    | some d => some (cfg.default_lang, d)
    | none => none

/-- `ExerciseConfig.data_for_language(lang)`. -/
def data_for_language (cfg : ExerciseConfig) (lang : Option String) :
    ExerciseConfig × DFLResult :=
  if lang = some "_root" then (cfg, .rootData cfg.data)
  else
    match firstHit cfg lang with
    | some (l, d) =>
      let d2 := aset d "lang" (.str l)
      ({ cfg with data := aset cfg.data l d2 }, .variant d2)
    | none =>
      match cfg.data with
      | [] => (cfg, .indexError)
      | (_, d) :: _ => (cfg, .variant d)

theorem mem_keysOf_of_alookup {α : Type} {d : List (String × α)} {k : String} {v : α}
    (h : alookup k d = some v) : k ∈ keysOf d := by
  by_contra hc
  rw [(alookup_eq_none_iff d k).mpr hc] at h
  cases h

theorem firstHit_some {cfg : ExerciseConfig} {lang : Option String}
    {l : String} {d : Dict} (h : firstHit cfg lang = some (l, d)) :
    alookup l cfg.data = some d := by
  rw [firstHit.eq_def] at h
  match lang with
  | some l2 =>
    simp only at h
    match h1 : alookup l2 cfg.data with
    | some d2 => rw [h1] at h; injection h with h; cases h; exact h1
    | none =>
      rw [h1] at h
      match h2 : alookup cfg.default_lang cfg.data with
      | some d2 => rw [h2] at h; injection h with h; cases h; exact h2
      | none => rw [h2] at h; cases h
  | none =>
    simp only at h
    match h2 : alookup cfg.default_lang cfg.data with
    | some d2 => rw [h2] at h; injection h with h; cases h; exact h2
    | none => rw [h2] at h; cases h

/-- C9: for a non-empty variant set (and an actual language request, not the
"_root" sentinel) the returned variant is the one for the requested
language if present, else the one for the configured default language if
present, else the first stored variant; no case raises.  The variant
returned in the first two cases carries the `lang` stamp the source writes
into it before returning. -/
theorem c9_data_for_language_fallback (cfg : ExerciseConfig) (lang : Option String)
    (hne : cfg.data ≠ []) (hroot : lang ≠ some "_root") :
    (∀ l d, lang = some l → alookup l cfg.data = some d →
       (data_for_language cfg lang).2 = .variant (aset d "lang" (.str l)))
    ∧ (∀ d, (∀ l, lang = some l → alookup l cfg.data = none) →
        alookup cfg.default_lang cfg.data = some d →
        (data_for_language cfg lang).2 = .variant (aset d "lang" (.str cfg.default_lang)))
    ∧ ((∀ l, lang = some l → alookup l cfg.data = none) →
        alookup cfg.default_lang cfg.data = none →
        ∃ p, cfg.data.head? = some p ∧ (data_for_language cfg lang).2 = .variant p.2)
    ∧ (data_for_language cfg lang).2 ≠ .indexError := by
  refine ⟨?_, ?_, ?_, ?_⟩
  · intro l d hl hd
    subst hl
    have hhit : firstHit cfg (some l) = some (l, d) := by
      rw [firstHit.eq_def]
      simp only [hd]
    rw [data_for_language, if_neg hroot, hhit]
  · intro d hmiss hd
    have hhit : firstHit cfg lang = some (cfg.default_lang, d) := by
      rw [firstHit.eq_def]
      match lang with
      | some l => simp only [hmiss l rfl, hd]
      | none => simp only [hd]
    rw [data_for_language, if_neg hroot, hhit]
  · intro hmiss hd
    have hhit : firstHit cfg lang = none := by
      rw [firstHit.eq_def]
      match lang with
      | some l => simp only [hmiss l rfl, hd]
      | none => simp only [hd]
    match hdata : cfg.data with
    | [] => exact absurd hdata hne
    | (l0, d0) :: rest =>
      refine ⟨(l0, d0), rfl, ?_⟩
      rw [data_for_language, if_neg hroot, hhit, hdata]
  · rw [data_for_language, if_neg hroot]
    match hhit : firstHit cfg lang with
    | some (l, d) => simp
    | none =>
      match hdata : cfg.data with
      | [] => exact absurd hdata hne
      | (l0, d0) :: rest => simp

/-- Witness for `c9_data_for_language_fallback`: requesting "fi" from a set
holding only "en" with default "en" returns the "en" variant, stamped. -/
theorem c9_data_for_language_fallback_witness :
    (data_for_language
        { data := [("en", [("title", .str "t")])], file := "f", mtime := 0, ptime := 0,
          default_lang := "en" } (some "fi")).2
      = .variant [("title", .str "t"), ("lang", .str "en")] :=
  (c9_data_for_language_fallback
      { data := [("en", [("title", .str "t")])], file := "f", mtime := 0, ptime := 0,
        default_lang := "en" } (some "fi") (by simp) (by simp)).2.1
    [("title", .str "t")]
    (by intro l hl; injection hl with hl; subst hl; rfl) rfl

/-- C10 counterexample: one call to `data_for_language` changes the stored
variant set: the "en" variant acquires a "lang" binding in place. -/
theorem c10_data_for_language_mutates_stored_variant :
    (data_for_language
        { data := [("en", [("title", .str "t")])], file := "f", mtime := 0, ptime := 0,
          default_lang := "en" } (some "en")).1.data
      ≠ [("en", [("title", .str "t")])] := by
  have heval : (data_for_language
      { data := [("en", [("title", .str "t")])], file := "f", mtime := 0, ptime := 0,
        default_lang := "en" } (some "en")).1.data
      = [("en", [("title", .str "t"), ("lang", .str "en")])] := rfl
  rw [heval]
  intro h
  have := congrArg (fun l => (l.headD ("", [])).2.length) h
  simp at this

/-- C10 as amended: `data_for_language` changes nothing except the variant
it resolves to and returns, which acquires a `lang` binding in place; the
language keys of the stored set are unchanged, every other variant is
unchanged, and the "_root" and final-fallback paths change nothing at all. -/
theorem c10_mutation_confined_to_returned_variant (cfg : ExerciseConfig)
    (lang : Option String) :
    (keysOf (data_for_language cfg lang).1.data = keysOf cfg.data)
    ∧ (lang = some "_root" → (data_for_language cfg lang).1 = cfg)
    ∧ (lang ≠ some "_root" →
        (∀ l d, firstHit cfg lang = some (l, d) →
           alookup l (data_for_language cfg lang).1.data = some (aset d "lang" (.str l))
           ∧ ∀ k, k ≠ l →
             alookup k (data_for_language cfg lang).1.data = alookup k cfg.data)
        ∧ (firstHit cfg lang = none → (data_for_language cfg lang).1 = cfg)) := by
  by_cases hroot : lang = some "_root"
  · have heq : data_for_language cfg lang = (cfg, .rootData cfg.data) := by
      rw [data_for_language, if_pos hroot]
    rw [heq]
    exact ⟨rfl, fun _ => rfl, fun h => absurd hroot h⟩
  · match hhit : firstHit cfg lang with
    | some (l, d) =>
      have hmem : l ∈ keysOf cfg.data := mem_keysOf_of_alookup (firstHit_some hhit)
      have heq : data_for_language cfg lang =
          ({ cfg with data := aset cfg.data l (aset d "lang" (.str l)) },
            .variant (aset d "lang" (.str l))) := by
        rw [data_for_language, if_neg hroot, hhit]
      rw [heq]
      refine ⟨?_, fun h => absurd h hroot, fun _ => ⟨?_, ?_⟩⟩
      · simp only
        rw [keysOf_aset, if_pos hmem]
      · intro l2 d2 hh2
        injection hh2 with hh2
        injection hh2 with h1 h2
        subst h1; subst h2
        constructor
        · simp only
          exact alookup_aset_self cfg.data l (aset d "lang" (.str l))
        · intro k hk
          simp only
          exact alookup_aset_ne cfg.data l k (aset d "lang" (.str l)) hk
      · intro hnone
        cases hnone
    | none =>
      match hdata : cfg.data with
      | [] =>
        have heq : data_for_language cfg lang = (cfg, .indexError) := by
          rw [data_for_language, if_neg hroot, hhit, hdata]
        rw [heq]
        exact ⟨by rw [hdata], fun h => absurd h hroot,
          fun _ => ⟨(fun l d h => by cases h), (fun _ => rfl)⟩⟩
      | (l0, d0) :: rest =>
        have heq : data_for_language cfg lang = (cfg, .variant d0) := by
          rw [data_for_language, if_neg hroot, hhit, hdata]
        rw [heq]
        exact ⟨by rw [hdata], fun h => absurd h hroot,
          fun _ => ⟨(fun l d h => by cases h), (fun _ => rfl)⟩⟩

/-- Witness for `c10_mutation_confined_to_returned_variant` at a concrete
configuration. -/
theorem c10_mutation_confined_witness :
    alookup "fi" (data_for_language
        { data := [("en", [("title", .str "t")]), ("fi", [("title", .str "o")])],
          file := "f", mtime := 0, ptime := 0, default_lang := "en" }
        (some "en")).1.data
      = some [("title", .str "o")] := by
  have h := ((c10_mutation_confined_to_returned_variant
      { data := [("en", [("title", .str "t")]), ("fi", [("title", .str "o")])],
        file := "f", mtime := 0, ptime := 0, default_lang := "en" }
      (some "en")).2.2 (by simp)).1 "en" [("title", .str "t")] rfl
  rw [(h.2 "fi" (by simp))]
  rfl

/-! ## The tag processor (src/access/config.py, ConfigParser.process_tags)

The key pattern is `PROCESSOR_TAG_REGEX = ^(.+)\|(\w+)$`; tag handlers are
`i18n` (pick the entry of a mapping for the target language) and `rst`
(render markup to an HTML string through the external collaborator
`get_rst_as_html`, modelled as a function parameter). -/

/-- A character matched by the regex class `\w` (ASCII; the keys of real
configurations are ASCII, so the wider Unicode word class is not
modelled). -/
def wordChar (c : Char) : Bool := c.isAlphanum || c == '_'

/-- Splits a character list at its LAST bar: `splitLastBar cs = some (p, t)`
when `cs = p ++ bar :: t` with `t` bar-free (the greedy `(.+)` of the
pattern eats every earlier bar). -/
def splitLastBar : List Char → Option (List Char × List Char)
  | [] => none
  | c :: rest =>
    match splitLastBar rest with
    | some (p, t) => some (c :: p, t)
    | none => if c = '|' then some ([], rest) else none

theorem splitLastBar_eq {cs p t : List Char}
    (h : splitLastBar cs = some (p, t)) : cs = p ++ '|' :: t := by
  induction cs generalizing p t with
  | nil => cases h
  | cons c rest ih =>
    rw [splitLastBar] at h
    match hr : splitLastBar rest with
    | some (p2, t2) =>
      rw [hr] at h
      injection h with h
      injection h with h1 h2
      subst h1; subst h2
      rw [ih hr]
      rfl
    | none =>
      rw [hr] at h
      by_cases hc : c = '|'
      · rw [if_pos hc] at h
        injection h with h
        injection h with h1 h2
        subst h1; subst h2
        rw [hc]
        rfl
      · rw [if_neg hc] at h
        cases h

/-- `PROCESSOR_TAG_REGEX.match(k)`: the last bar splits the key; the suffix
must be nonempty word characters and the prefix nonempty and newline-free
(`.` does not match a newline).  A single trailing newline is tolerated
because `$` also matches just before one. -/
def tagMatch (k : String) : Option (String × String) :=
  let cs := if k.data.getLast? = some '\n' then k.data.dropLast else k.data
  match splitLastBar cs with
  | some (p, t) =>
    if !p.isEmpty && !t.isEmpty && t.all wordChar && p.all (fun c => c != '\n') then
      some (⟨p⟩, ⟨t⟩)
    else none
  | none => none

theorem tagMatch_length {k : String} {p t : String}
    (h : tagMatch k = some (p, t)) : p.length < k.length := by
  rw [tagMatch] at h
  set cs := if k.data.getLast? = some '\n' then k.data.dropLast else k.data with hcs
  have hcslen : cs.length ≤ k.data.length := by
    rw [hcs]
    by_cases hl : k.data.getLast? = some '\n'
    · rw [if_pos hl]
      rw [List.length_dropLast]
      exact Nat.sub_le _ _
    · rw [if_neg hl]
  match hs : splitLastBar cs with
  | none => rw [hs] at h; cases h
  | some (pl, tl) =>
    rw [hs] at h
    dsimp only at h
    by_cases hcond : (!pl.isEmpty && !tl.isEmpty && tl.all wordChar
        && pl.all (fun c => c != '\n')) = true
    · rw [if_pos hcond] at h
      injection h with h
      injection h with h1 h2
      have hplen : p.length = pl.length := by rw [← h1]; rfl
      have hklen : k.length = k.data.length := rfl
      have hcseq : cs = pl ++ '|' :: tl := splitLastBar_eq hs
      have hcl : cs.length = pl.length + (1 + tl.length) := by
        rw [hcseq]
        simp [List.length_append]
        omega
      omega
    · rw [if_neg hcond] at h
      cases h

/-- Fuel-bounded tag stripping; `tagMatch` strictly shortens the key
(`tagMatch_length`), so `k.length` rounds of fuel can never run out on the
way to a bar-free key (see `stripTags_unfold`). -/
def stripTagsFuel : Nat → String → String × List String
  | 0, k => (k, [])
  | fuel + 1, k =>
    match tagMatch k with
    | some (k2, t) =>
      let r := stripTagsFuel fuel k2
      (r.1, t :: r.2)
    | none => (k, [])

/-- The `while m:` loop on one key: the fully stripped key together with the
tag suffixes in the order the source applies them (the rightmost suffix is
matched and applied first).  The handlers never alter the key, so the tag
sequence is a function of the key alone. -/
def stripTags (k : String) : String × List String :=
  stripTagsFuel k.length k

theorem stripTagsFuel_adequate :
    ∀ (fuel : Nat) (k : String), k.length ≤ fuel →
    stripTagsFuel fuel k = stripTagsFuel k.length k := by
  intro fuel
  induction fuel using Nat.strong_induction_on with
  | _ fuel ih =>
    intro k hk
    match fuel with
    | 0 =>
      have h0 : k.length = 0 := Nat.le_zero.mp hk
      rw [h0]
    | f + 1 =>
      match hm : tagMatch k with
      | none =>
        match hl : k.length with
        | 0 => simp only [stripTagsFuel, hm]
        | n + 1 => simp only [stripTagsFuel, hm]
      | some (k2, t) =>
        have hlt : k2.length < k.length := tagMatch_length hm
        match hl : k.length with
        | 0 => omega
        | n + 1 =>
          simp only [stripTagsFuel, hm]
          have h2 : stripTagsFuel f k2 = stripTagsFuel k2.length k2 :=
            ih f (by omega) k2 (by omega)
          have h3 : stripTagsFuel n k2 = stripTagsFuel k2.length k2 :=
            ih n (by omega) k2 (by omega)
          rw [h2, h3]

/-- `stripTags` satisfies the defining equation of the `while m:` loop. -/
theorem stripTags_unfold (k : String) :
    stripTags k =
      match tagMatch k with
      | some (k2, t) => ((stripTags k2).1, t :: (stripTags k2).2)
      | none => (k, []) := by
  match hm : tagMatch k with
  | none =>
    rw [stripTags]
    match hl : k.length with
    | 0 => simp only [stripTagsFuel, hm]
    | n + 1 => simp only [stripTagsFuel, hm]
  | some (k2, t) =>
    have hlt : k2.length < k.length := tagMatch_length hm
    rw [stripTags]
    match hl : k.length with
    | 0 => omega
    | n + 1 =>
      simp only [stripTagsFuel, hm]
      rw [stripTagsFuel_adequate n k2 (by omega)]
      rfl

theorem stripTags_of_none {k : String} (h : tagMatch k = none) :
    stripTags k = (k, []) := by
  rw [stripTags_unfold, h]

/-- Errors raised inside `process_tags`. -/
inductive TagErr where
  | unsupportedTag (tag : String)
  | attributeError
deriving Repr, DecidableEq

/-- One tag handler application (`TAG_PROCESSOR_DICT[tag](d, n, v, lang=lang)`
guarded by the membership test): `i18n` picks the mapping entry for the
target language via `value.get(lang)` (`None` when absent, AttributeError
when the value is not a mapping); `rst` renders the value to an HTML string
through the external renderer `rst`; any other tag raises a ConfigError. -/
def applyOneTag (rst : JVal → String) (lang : String) (tag : String) (v : JVal) :
    Except TagErr JVal :=
  if tag = "i18n" then
    match v with
    | .obj d => .ok ((alookup lang d).getD .null)
    | _ => .error .attributeError
  else if tag = "rst" then .ok (.str (rst v))
  else .error (.unsupportedTag tag)

/-- The language keys harvested for one tag during the collecting pass
(`if collect_lang and tag == 'i18n' and type(v) == dict`). -/
def harvestOf (collect : Bool) (tag : String) (v : JVal) : List String :=
  if collect ∧ tag = "i18n" then
    match v with
    | .obj d => keysOf d
    | _ => []
  else []

/-- Applies a tag sequence to a value (the body of the `while m:` loop,
iterated): for each tag the harvest is recorded, then the handler runs.
An unknown tag can only harvest the empty list, so recording the harvest
together with a successful handler application is faithful to the source
order (harvest before the membership check). -/
def applyTagList (rst : JVal → String) (lang : String) (collect : Bool) :
    List String → JVal → Except TagErr (JVal × List String)
  | [], v => .ok (v, [])
  | tag :: rest, v =>
    match applyOneTag rst lang tag v with
    | .error e => .error e
    | .ok v2 =>
      match applyTagList rst lang collect rest v2 with
      | .error e => .error e
      | .ok r => .ok (r.1, harvestOf collect tag v ++ r.2)

mutual

/-- Structural size of a value, strings and scalars counting 1. -/
def sizeJ : JVal → Nat
  | .null => 1
  | .bool _ => 1
  | .num _ => 1
  | .str _ => 1
  | .arr xs => 1 + sizeL xs
  | .obj kvs => 1 + sizeE kvs

def sizeE : List (String × JVal) → Nat
  | [] => 0
  | p :: r => 1 + sizeJ p.2 + sizeE r

def sizeL : List JVal → Nat
  | [] => 0
  | v :: r => 1 + sizeJ v + sizeL r

end

theorem sizeJ_pos (v : JVal) : 1 ≤ sizeJ v := by
  cases v <;> simp [sizeJ]

theorem sizeJ_alookup_le (d : List (String × JVal)) (k : String) :
    sizeJ ((alookup k d).getD .null) ≤ 1 + sizeE d := by
  induction d with
  | nil => simp [alookup, sizeJ]
  | cons p rest ih =>
    obtain ⟨k2, v2⟩ := p
    rw [alookup]
    by_cases h : k2 = k
    · rw [if_pos h]
      simp only [Option.getD_some, sizeE]
      omega
    · rw [if_neg h]
      simp only [sizeE]
      omega

theorem applyOneTag_size (rst : JVal → String) (lang : String) (tag : String)
    (v v2 : JVal) (h : applyOneTag rst lang tag v = .ok v2) : sizeJ v2 ≤ sizeJ v := by
  rw [applyOneTag.eq_def] at h
  by_cases h18 : tag = "i18n"
  · rw [if_pos h18] at h
    cases v with
    | obj d =>
      injection h with h
      rw [← h]
      have := sizeJ_alookup_le d lang
      simp only [sizeJ]
      omega
    | null => cases h
    | bool b => cases h
    | num n => cases h
    | str s => cases h
    | arr xs => cases h
  · rw [if_neg h18] at h
    by_cases hrst : tag = "rst"
    · rw [if_pos hrst] at h
      injection h with h
      rw [← h]
      exact sizeJ_pos v
    · rw [if_neg hrst] at h
      cases h

theorem applyTagList_size (rst : JVal → String) (lang : String) (collect : Bool) :
    ∀ (ts : List String) (v : JVal) (r : JVal × List String),
    applyTagList rst lang collect ts v = .ok r → sizeJ r.1 ≤ sizeJ v := by
  intro ts
  induction ts with
  | nil =>
    intro v r h
    rw [applyTagList] at h
    injection h with h
    rw [← h]
  | cons tag rest ih =>
    intro v r h
    rw [applyTagList] at h
    match h1 : applyOneTag rst lang tag v with
    | .error e => rw [h1] at h; cases h
    | .ok v2 =>
      rw [h1] at h
      dsimp only at h
      match h2 : applyTagList rst lang collect rest v2 with
      | .error e => rw [h2] at h; cases h
      | .ok r2 =>
        rw [h2] at h
        injection h with h
        have ha := applyOneTag_size rst lang tag v v2 h1
        have hb := ih v2 r2 h2
        have hr : r.1 = r2.1 := by rw [← h]
        rw [hr]
        omega

/-- The deterministic key order of `process_tags`:
`sorted(n.keys(), key=lambda x: (len(x), x))`, lifted to dict entries. -/
def keyle (a b : String × JVal) : Prop :=
  a.1.length < b.1.length ∨ (a.1.length = b.1.length ∧ a.1 ≤ b.1)

instance : DecidableRel keyle := fun a b => by
  unfold keyle
  infer_instance

instance : IsTotal (String × JVal) keyle := ⟨by
  intro a b
  rcases Nat.lt_trichotomy a.1.length b.1.length with h | h | h
  · exact Or.inl (Or.inl h)
  · rcases le_total a.1 b.1 with h2 | h2
    · exact Or.inl (Or.inr ⟨h, h2⟩)
    · exact Or.inr (Or.inr ⟨h.symm, h2⟩)
  · exact Or.inr (Or.inl h)⟩

instance : IsTrans (String × JVal) keyle := ⟨by
  intro a b c hab hbc
  rcases hab with h1 | ⟨h1, h1b⟩ <;> rcases hbc with h2 | ⟨h2, h2b⟩
  · exact Or.inl (h1.trans h2)
  · exact Or.inl (by omega)
  · exact Or.inl (by omega)
  · exact Or.inr ⟨h1.trans h2, h1b.trans h2b⟩⟩

/-- Sorting the entries of a dict by key, `(len, lex)` order; for the
duplicate-free dicts of Python, iterating the sorted entries is iterating
the sorted keys and looking each one up. -/
def sortDict (kvs : List (String × JVal)) : List (String × JVal) :=
  List.insertionSort keyle kvs

theorem sizeE_eq_sum (l : List (String × JVal)) :
    sizeE l = (l.map (fun p => 1 + sizeJ p.2)).sum := by
  induction l with
  | nil => simp [sizeE]
  | cons p rest ih => simp [sizeE, ih]

theorem sizeE_sortDict (kvs : List (String × JVal)) :
    sizeE (sortDict kvs) = sizeE kvs := by
  rw [sizeE_eq_sum, sizeE_eq_sum]
  exact List.Perm.sum_eq ((List.perm_insertionSort keyle kvs).map _)

mutual

/-- The recursive body of `ConfigParser.process_tags` (its inner function
`recursion`, src/access/config.py lines 518-538): dict keys are visited in
`(len, lex)` order, each key is stripped of its tag suffixes with the tags
applied to the value, the transformed value is recursed into, and the
result is stored under the stripped key (`d[k] = recursion(v, ...)`); lists
map recursively; scalars pass through.  Returns the transformed value
together with the `lang_keys` harvest of the subtree. -/
def recVal (rst : JVal → String) (lang : String) (collect : Bool) :
    JVal → Except TagErr (JVal × List String)
  | .obj kvs =>
    match recEntries rst lang collect (sortDict kvs) [] with
    | .ok r => .ok (.obj r.1, r.2)
    | .error e => .error e
  | .arr xs =>
    match recList rst lang collect xs with
    | .ok r => .ok (.arr r.1, r.2)
    | .error e => .error e
  | .null => .ok (.null, [])
  | .bool b => .ok (.bool b, [])
  | .num n => .ok (.num n, [])
  | .str s => .ok (.str s, [])
termination_by v => sizeJ v
decreasing_by
  · rw [sizeE_sortDict]
    simp [sizeJ]
  · simp [sizeJ]

/-- The `for k in sorted(n.keys(), ...)` loop over the (sorted) entries of
one dict, accumulating the built dict `d`. -/
def recEntries (rst : JVal → String) (lang : String) (collect : Bool) :
    List (String × JVal) → Dict → Except TagErr (Dict × List String)
  | [], d => .ok (d, [])
  | (k, v) :: rest, d =>
    match h1 : applyTagList rst lang collect (stripTags k).2 v with
    | .error e => .error e
    | .ok r1 =>
      match recVal rst lang collect r1.1 with
      | .error e => .error e
      | .ok r2 =>
        match recEntries rst lang collect rest (aset d (stripTags k).1 r2.1) with
        | .error e => .error e
        | .ok r3 => .ok (r3.1, r1.2 ++ (r2.2 ++ r3.2))
termination_by entries d => sizeE entries
decreasing_by
  · have := applyTagList_size rst lang collect (stripTags k).2 v r1 h1
    simp only [sizeE]
    omega
  · simp only [sizeE]
    omega

/-- Element-wise recursion over a list value. -/
def recList (rst : JVal → String) (lang : String) (collect : Bool) :
    List JVal → Except TagErr (List JVal × List String)
  | [] => .ok ([], [])
  | v :: rest =>
    match recVal rst lang collect v with
    | .error e => .error e
    | .ok r1 =>
      match recList rst lang collect rest with
      | .error e => .error e
      | .ok r2 => .ok (r1.1 :: r2.1, r1.2 ++ r2.2)
termination_by xs => sizeL xs
decreasing_by
  · simp only [sizeL]
    omega
  · simp only [sizeL]
    omega

end

/-- The per-language passes after the first
(`root[lang] = recursion(data, lang)`). -/
def processExtras (rst : JVal → String) (data : Dict) :
    List String → Except TagErr (List (String × JVal))
  | [] => .ok []
  | l :: rest =>
    match recVal rst l false (.obj data) with
    | .error e => .error e
    | .ok r =>
      match processExtras rst data rest with
      | .error e => .error e
      | .ok rs => .ok ((l, r.1) :: rs)

/-- `ConfigParser.process_tags(data, default_lang)` (src/access/config.py
lines 504-546): one collecting pass with the default language, then one
pass per additional language harvested from `i18n` values
(`set(lang_keys) - set([default_lang])`; the Python set iteration order is
unspecified, first-occurrence order is used here -- either way the result
is a dict keyed by language). -/
def process_tags (rst : JVal → String) (data : Dict) (default_lang : String) :
    Except TagErr (List (String × JVal)) :=
  match recVal rst default_lang true (.obj data) with
  | .error e => .error e
  | .ok r =>
    match processExtras rst data (r.2.dedup.filter (fun l => l != default_lang)) with
    | .error e => .error e
    | .ok rest => .ok ((default_lang, r.1) :: rest)

theorem processExtras_mem (rst : JVal → String) (data : Dict) :
    ∀ (ls : List String) (rs : List (String × JVal)),
    processExtras rst data ls = .ok rs →
    ∀ p ∈ rs, ∃ hs2, recVal rst p.1 false (.obj data) = .ok (p.2, hs2) := by
  intro ls
  induction ls with
  | nil =>
    intro rs h
    rw [processExtras] at h
    injection h with h
    rw [← h]
    intro p hp
    cases hp
  | cons l rest ih =>
    intro rs h
    rw [processExtras] at h
    match h1 : recVal rst l false (.obj data) with
    | .error e => rw [h1] at h; cases h
    | .ok r =>
      rw [h1] at h
      dsimp only at h
      match h2 : processExtras rst data rest with
      | .error e => rw [h2] at h; cases h
      | .ok rs2 =>
        rw [h2] at h
        injection h with h
        rw [← h]
        intro p hp
        rcases List.mem_cons.mp hp with h3 | h3
        · subst h3
          exact ⟨r.2, h1⟩
        · exact ih rs2 h2 p h3

theorem processExtras_keys (rst : JVal → String) (data : Dict) :
    ∀ (ls : List String) (rs : List (String × JVal)),
    processExtras rst data ls = .ok rs → rs.map Prod.fst = ls := by
  intro ls
  induction ls with
  | nil =>
    intro rs h
    rw [processExtras] at h
    injection h with h
    rw [← h]
    rfl
  | cons l rest ih =>
    intro rs h
    rw [processExtras] at h
    match h1 : recVal rst l false (.obj data) with
    | .error e => rw [h1] at h; cases h
    | .ok r =>
      rw [h1] at h
      dsimp only at h
      match h2 : processExtras rst data rest with
      | .error e => rw [h2] at h; cases h
      | .ok rs2 =>
        rw [h2] at h
        injection h with h
        rw [← h]
        simp [ih rs2 h2]

mutual

/-- Recursively sorts every mapping of a value into the processing key
order; this is exactly the reordering `recursion` applies to a document
that contains no processor tags. -/
def sortJ : JVal → JVal
  | .obj kvs => .obj (sortJE (sortDict kvs))
  | .arr xs => .arr (sortJL xs)
  | .null => .null
  | .bool b => .bool b
  | .num n => .num n
  | .str s => .str s
termination_by v => sizeJ v
decreasing_by
  · rw [sizeE_sortDict]
    simp [sizeJ]
  · simp [sizeJ]

/-- `sortJ` mapped over the values of an entry list. -/
def sortJE : List (String × JVal) → List (String × JVal)
  | [] => []
  | (k, v) :: rest => (k, sortJ v) :: sortJE rest
termination_by l => sizeE l
decreasing_by
  · simp only [sizeE]
    omega
  · simp only [sizeE]
    omega

/-- `sortJ` mapped over a list. -/
def sortJL : List JVal → List JVal
  | [] => []
  | v :: rest => sortJ v :: sortJL rest
termination_by l => sizeL l
decreasing_by
  · simp only [sizeL]
    omega
  · simp only [sizeL]
    omega

end

mutual

/-- No mapping key anywhere in the value matches the processor-tag
pattern. -/
def noTagsV : JVal → Bool
  | .obj kvs => noTagsE kvs
  | .arr xs => noTagsL xs
  | .null => true
  | .bool _ => true
  | .num _ => true
  | .str _ => true
termination_by v => sizeJ v
decreasing_by
  · simp [sizeJ]
  · simp [sizeJ]

def noTagsE : List (String × JVal) → Bool
  | [] => true
  | (k, v) :: rest => (tagMatch k).isNone && noTagsV v && noTagsE rest
termination_by l => sizeE l
decreasing_by
  · simp only [sizeE]
    omega
  · simp only [sizeE]
    omega

def noTagsL : List JVal → Bool
  | [] => true
  | v :: rest => noTagsV v && noTagsL rest
termination_by l => sizeL l
decreasing_by
  · simp only [sizeL]
    omega
  · simp only [sizeL]
    omega

end

mutual

/-- Well-formedness of a value as a parsed Python document: every mapping
anywhere in it has pairwise-distinct keys (a Python dict cannot hold a key
twice; association lists can, so this is the modelling invariant). -/
def wfV : JVal → Bool
  | .obj kvs => decide (keysOf kvs).Nodup && wfE kvs
  | .arr xs => wfL xs
  | .null => true
  | .bool _ => true
  | .num _ => true
  | .str _ => true
termination_by v => sizeJ v
decreasing_by
  · simp [sizeJ]
  · simp [sizeJ]

def wfE : List (String × JVal) → Bool
  | [] => true
  | (_, v) :: rest => wfV v && wfE rest
termination_by l => sizeE l
decreasing_by
  · simp only [sizeE]
    omega
  · simp only [sizeE]
    omega

def wfL : List JVal → Bool
  | [] => true
  | v :: rest => wfV v && wfL rest
termination_by l => sizeL l
decreasing_by
  · simp only [sizeL]
    omega
  · simp only [sizeL]
    omega

end

theorem keysOf_append {α : Type} (a b : List (String × α)) :
    keysOf (a ++ b) = keysOf a ++ keysOf b := by
  simp [keysOf]

theorem noTagsE_mem {l : List (String × JVal)} (h : noTagsE l = true) :
    ∀ p ∈ l, (tagMatch p.1).isNone = true ∧ noTagsV p.2 = true := by
  induction l with
  | nil => intro p hp; cases hp
  | cons q rest ih =>
    obtain ⟨k, v⟩ := q
    rw [noTagsE] at h
    simp only [Bool.and_eq_true] at h
    intro p hp
    rcases List.mem_cons.mp hp with h2 | h2
    · subst h2; exact ⟨h.1.1, h.1.2⟩
    · exact ih h.2 p h2

theorem noTagsE_of_mem : ∀ (l : List (String × JVal)),
    (∀ p ∈ l, (tagMatch p.1).isNone = true ∧ noTagsV p.2 = true) → noTagsE l = true := by
  intro l
  induction l with
  | nil => intro _; rw [noTagsE]
  | cons q rest ih =>
    obtain ⟨k, v⟩ := q
    intro h
    rw [noTagsE]
    simp only [Bool.and_eq_true]
    exact ⟨⟨(h (k, v) (by simp)).1, (h (k, v) (by simp)).2⟩,
      ih (fun p hp => h p (List.mem_cons_of_mem _ hp))⟩

theorem wfE_mem {l : List (String × JVal)} (h : wfE l = true) :
    ∀ p ∈ l, wfV p.2 = true := by
  induction l with
  | nil => intro p hp; cases hp
  | cons q rest ih =>
    obtain ⟨k, v⟩ := q
    rw [wfE] at h
    simp only [Bool.and_eq_true] at h
    intro p hp
    rcases List.mem_cons.mp hp with h2 | h2
    · subst h2; exact h.1
    · exact ih h.2 p h2

theorem wfE_of_mem : ∀ (l : List (String × JVal)),
    (∀ p ∈ l, wfV p.2 = true) → wfE l = true := by
  intro l
  induction l with
  | nil => intro _; rw [wfE]
  | cons q rest ih =>
    obtain ⟨k, v⟩ := q
    intro h
    rw [wfE]
    simp only [Bool.and_eq_true]
    exact ⟨h (k, v) (by simp), ih (fun p hp => h p (List.mem_cons_of_mem _ hp))⟩

mutual

/-- On a tag-free, well-formed value, `recursion` only reorders mappings
into the sorted key order and harvests nothing. -/
theorem recVal_noTags (rs : JVal → String) (lang : String) (c : Bool) :
    ∀ (v : JVal), wfV v = true → noTagsV v = true →
    recVal rs lang c v = .ok (sortJ v, [])
  | .null, _, _ => by rw [recVal, sortJ]
  | .bool b, _, _ => by rw [recVal, sortJ]
  | .num n, _, _ => by rw [recVal, sortJ]
  | .str s, _, _ => by rw [recVal, sortJ]
  | .arr xs, hw, hn => by
    have hw2 : wfL xs = true := by rw [wfV] at hw; exact hw
    have hn2 : noTagsL xs = true := by rw [noTagsV] at hn; exact hn
    rw [recVal, recList_noTags rs lang c xs hw2 hn2, sortJ]
  | .obj kvs, hw, hn => by
    have hkn : (keysOf kvs).Nodup ∧ wfE kvs = true := by
      rw [wfV] at hw
      simp only [Bool.and_eq_true, decide_eq_true_eq] at hw
      exact hw
    have hperm : List.Perm (sortDict kvs) kvs := List.perm_insertionSort keyle kvs
    have hnodup2 : (keysOf (sortDict kvs)).Nodup :=
      ((hperm.map Prod.fst).nodup_iff).mpr hkn.1
    have hwE2 : wfE (sortDict kvs) = true :=
      wfE_of_mem _ (fun p hp => wfE_mem hkn.2 p (hperm.mem_iff.mp hp))
    have hnE : noTagsE kvs = true := by rw [noTagsV] at hn; exact hn
    have hnE2 : noTagsE (sortDict kvs) = true :=
      noTagsE_of_mem _ (fun p hp => noTagsE_mem hnE p (hperm.mem_iff.mp hp))
    have hrec := recEntries_noTags rs lang c (sortDict kvs) [] hwE2 hnE2 hnodup2
      (by intro k2 _ hc; cases hc)
    rw [recVal, hrec, sortJ]
    simp
termination_by v _ _ => sizeJ v
decreasing_by
  · simp [sizeJ]
  · rw [sizeE_sortDict]
    simp [sizeJ]

/-- On sorted, tag-free, well-formed entries with keys fresh for the
accumulator, the entry loop appends the value-sorted entries. -/
theorem recEntries_noTags (rs : JVal → String) (lang : String) (c : Bool) :
    ∀ (entries : List (String × JVal)) (d : Dict),
    wfE entries = true → noTagsE entries = true →
    (keysOf entries).Nodup → (∀ k2 ∈ keysOf entries, k2 ∉ keysOf d) →
    recEntries rs lang c entries d = .ok (d ++ sortJE entries, [])
  | [], d, _, _, _, _ => by rw [recEntries, sortJE]; simp
  | (k, v) :: rest, d, hw, hn, hnodup, hdisj => by
    rw [noTagsE] at hn
    simp only [Bool.and_eq_true] at hn
    obtain ⟨⟨hkt, hnv⟩, hnrest⟩ := hn
    rw [wfE] at hw
    simp only [Bool.and_eq_true] at hw
    obtain ⟨hwv, hwrest⟩ := hw
    have hst : stripTags k = (k, []) :=
      stripTags_of_none (Option.isNone_iff_eq_none.mp hkt)
    have hkdisj : k ∉ keysOf d := hdisj k (by simp [keysOf])
    have hnodup2 : (keysOf rest).Nodup ∧ k ∉ keysOf rest := by
      simp only [keysOf, List.map_cons, List.nodup_cons] at hnodup
      exact ⟨hnodup.2, hnodup.1⟩
    rw [recEntries.eq_def]
    dsimp only
    split
    · rename_i e heq
      rw [hst] at heq
      rw [applyTagList] at heq
      cases heq
    · rename_i r1 heq
      rw [hst] at heq
      rw [applyTagList] at heq
      injection heq with heq
      subst heq
      rw [recVal_noTags rs lang c v hwv hnv]
      dsimp only
      rw [hst]
      dsimp only
      rw [aset_of_not_mem d k (sortJ v) hkdisj]
      rw [recEntries_noTags rs lang c rest (d ++ [(k, sortJ v)]) hwrest hnrest hnodup2.1
        (by
          intro k2 hk2
          rw [keysOf_append]
          simp only [List.mem_append, keysOf, List.map_cons, List.map_nil,
            List.mem_singleton, not_or]
          refine ⟨hdisj k2 ?_, ?_⟩
          · simp only [keysOf, List.map_cons, List.mem_cons]
            right
            simpa [keysOf] using hk2
          · intro hc
            subst hc
            exact hnodup2.2 hk2)]
      dsimp only
      rw [sortJE]
      simp
termination_by entries d _ _ _ _ => sizeE entries
decreasing_by
  · simp only [sizeE]
    omega
  · simp only [sizeE]
    omega

/-- On a tag-free, well-formed list, the element recursion maps `sortJ`. -/
theorem recList_noTags (rs : JVal → String) (lang : String) (c : Bool) :
    ∀ (xs : List JVal), wfL xs = true → noTagsL xs = true →
    recList rs lang c xs = .ok (sortJL xs, [])
  | [], _, _ => by rw [recList, sortJL]
  | v :: rest, hw, hn => by
    rw [wfL] at hw
    rw [noTagsL] at hn
    simp only [Bool.and_eq_true] at hw hn
    rw [recList, recVal_noTags rs lang c v hw.1 hn.1]
    dsimp only
    rw [recList_noTags rs lang c rest hw.2 hn.2]
    dsimp only
    rw [sortJL]
    simp
termination_by xs _ _ => sizeL xs
decreasing_by
  · simp only [sizeL]
    omega
  · simp only [sizeL]
    omega

end

theorem sortJE_eq_map (l : List (String × JVal)) :
    sortJE l = l.map (fun p => (p.1, sortJ p.2)) := by
  induction l with
  | nil => rw [sortJE]; rfl
  | cons q rest ih =>
    obtain ⟨k, v⟩ := q
    rw [sortJE, ih]
    rfl

theorem sorted_sortJE {l : List (String × JVal)} (h : List.Sorted keyle l) :
    List.Sorted keyle (sortJE l) := by
  rw [sortJE_eq_map]
  exact List.Pairwise.map _ (fun a b hab => by simpa [keyle] using hab) h

theorem sortDict_of_sorted {l : List (String × JVal)} (h : List.Sorted keyle l) :
    sortDict l = l :=
  List.Sorted.insertionSort_eq h

mutual

/-- `sortJ` is idempotent: a recursively key-sorted document is fixed by
another sorting pass. -/
theorem sortJ_idem : ∀ (v : JVal), sortJ (sortJ v) = sortJ v
  | .null => by simp only [sortJ]
  | .bool b => by simp only [sortJ]
  | .num n => by simp only [sortJ]
  | .str s => by simp only [sortJ]
  | .arr xs => by
    simp only [sortJ]
    rw [sortJL_idem xs]
  | .obj kvs => by
    simp only [sortJ]
    have hsorted : List.Sorted keyle (sortDict kvs) :=
      List.sorted_insertionSort keyle kvs
    rw [sortDict_of_sorted (sorted_sortJE hsorted)]
    rw [sortJE_idem (sortDict kvs)]
termination_by v => sizeJ v
decreasing_by
  · simp [sizeJ]
  · rw [sizeE_sortDict]
    simp [sizeJ]

theorem sortJE_idem : ∀ (l : List (String × JVal)), sortJE (sortJE l) = sortJE l
  | [] => by simp only [sortJE]
  | (k, v) :: rest => by
    simp only [sortJE]
    rw [sortJ_idem v, sortJE_idem rest]
termination_by l => sizeE l
decreasing_by
  · simp only [sizeE]
    omega
  · simp only [sizeE]
    omega

theorem sortJL_idem : ∀ (l : List JVal), sortJL (sortJL l) = sortJL l
  | [] => by simp only [sortJL]
  | v :: rest => by
    simp only [sortJL]
    rw [sortJ_idem v, sortJL_idem rest]
termination_by l => sizeL l
decreasing_by
  · simp only [sizeL]
    omega
  · simp only [sizeL]
    omega

end

/-- Content equality of two parsed documents: equality after recursively
sorting every mapping into the processing key order.  For well-formed
documents this is mapping equality at every level, with insertion order
ignored -- the sense in which Python compares dicts with `==`. -/
def contentEq (a b : JVal) : Prop := sortJ a = sortJ b

/-- C7: every successful `process_tags` result starts with the default
language mapped to the default pass; its language keys are exactly the
default language together with the languages harvested from `i18n` mappings
during the default pass; every variant of the result is the full recursive
expansion of the document targeting that variant's language; and the
concrete two-language example: a document
`{field|i18n: {en: "A", fi: "B"}}` processed with default "en" yields an
"en" variant with `field = "A"` and a "fi" variant with `field = "B"`. -/
theorem c7_process_tags_language_variants :
    (∀ (rs : JVal → String) (data : Dict) (L : String) (m : List (String × JVal)),
       process_tags rs data L = .ok m →
       ∃ dv hs, recVal rs L true (.obj data) = .ok (dv, hs) ∧
         m.head? = some (L, dv) ∧
         (∀ l, l ∈ m.map Prod.fst ↔ (l = L ∨ l ∈ hs)) ∧
         (∀ p ∈ m, p = (L, dv) ∨
           ∃ hs2, recVal rs p.1 false (.obj data) = .ok (p.2, hs2)))
    ∧ (∀ rs : JVal → String,
        process_tags rs [("field|i18n", .obj [("en", .str "A"), ("fi", .str "B")])] "en"
          = .ok [("en", .obj [("field", .str "A")]), ("fi", .obj [("field", .str "B")])]) := by
  constructor
  · intro rs data L m h
    rw [process_tags] at h
    match h1 : recVal rs L true (.obj data) with
    | .error e => rw [h1] at h; cases h
    | .ok r =>
      rw [h1] at h
      dsimp only at h
      match h2 : processExtras rs data (r.2.dedup.filter (fun l => l != L)) with
      | .error e => rw [h2] at h; cases h
      | .ok rest =>
        rw [h2] at h
        injection h with h
        refine ⟨r.1, r.2, ?_, ?_, ?_, ?_⟩
        · rfl
        · rw [← h]
          rfl
        · intro l
          rw [← h]
          simp only [List.map_cons, List.mem_cons, processExtras_keys rs data _ rest h2]
          constructor
          · rintro (hl | hl)
            · exact Or.inl hl
            · exact Or.inr (List.mem_dedup.mp (List.mem_filter.mp hl).1)
          · rintro (hl | hl)
            · exact Or.inl hl
            · by_cases hL : l = L
              · exact Or.inl hL
              · refine Or.inr (List.mem_filter.mpr ⟨List.mem_dedup.mpr hl, ?_⟩)
                simpa using hL
        · intro p hp
          rw [← h] at hp
          rcases List.mem_cons.mp hp with h3 | h3
          · exact Or.inl h3
          · exact Or.inr (processExtras_mem rs data _ rest h2 p h3)
  · intro rs
    simp [process_tags, processExtras, recVal, recEntries, recList, applyTagList,
      applyOneTag, harvestOf, stripTags, stripTagsFuel, tagMatch, splitLastBar, sortDict,
      List.insertionSort, List.orderedInsert, alookup, aset, keysOf, wordChar]

/-- Witness for `c7_process_tags_language_variants`: its general part applied
to the document of its example part. -/
theorem c7_process_tags_language_variants_witness :
    ∃ dv hs,
      recVal (fun _ => "") "en" true
          (.obj [("field|i18n", .obj [("en", .str "A"), ("fi", .str "B")])]) = .ok (dv, hs) ∧
      ([("en", JVal.obj [("field", .str "A")]), ("fi", .obj [("field", .str "B")])].head?
          = some ("en", dv)) ∧
      (∀ l, l ∈ [("en", JVal.obj [("field", .str "A")]),
          ("fi", .obj [("field", .str "B")])].map Prod.fst ↔ (l = "en" ∨ l ∈ hs)) ∧
      (∀ p ∈ [("en", JVal.obj [("field", .str "A")]), ("fi", .obj [("field", .str "B")])],
        p = ("en", dv) ∨
        ∃ hs2, recVal (fun _ => "") p.1 false
          (.obj [("field|i18n", .obj [("en", .str "A"), ("fi", .str "B")])])
          = .ok (p.2, hs2)) :=
  c7_process_tags_language_variants.1 (fun _ => "")
    [("field|i18n", .obj [("en", .str "A"), ("fi", .str "B")])] "en"
    [("en", .obj [("field", .str "A")]), ("fi", .obj [("field", .str "B")])]
    (c7_process_tags_language_variants.2 (fun _ => ""))

/-- C8: a well-formed document without processor-tagged keys processed for
any language `L` (with any markup renderer) yields the one-entry mapping
`{L: doc2}` where `doc2` is the document with its mappings reordered into
the processing key order -- content-equal to the input (`contentEq`, the
sense in which Python `==` compares dicts). -/
theorem c8_no_tags_identity (rs : JVal → String) (data : Dict) (L : String)
    (hw : wfV (.obj data) = true) (hn : noTagsV (.obj data) = true) :
    process_tags rs data L = .ok [(L, sortJ (.obj data))]
    ∧ contentEq (sortJ (.obj data)) (.obj data) := by
  constructor
  · rw [process_tags, recVal_noTags rs L true (.obj data) hw hn]
    dsimp only
    rw [show (([] : List String).dedup.filter (fun l => l != L)) = [] from rfl]
    rw [processExtras]
  · exact sortJ_idem (.obj data)

/-- Witness for `c8_no_tags_identity` at a concrete tag-free document. -/
theorem c8_no_tags_identity_witness :
    process_tags (fun _ => "") [("b", .num 1), ("a", .str "x")] "en"
      = .ok [("en", .obj [("a", .str "x"), ("b", .num 1)])] := by
  have h := (c8_no_tags_identity (fun _ => "") [("b", .num 1), ("a", .str "x")] "en"
      (by simp +decide [wfV, wfE, keysOf])
      (by simp +decide [noTagsV, noTagsE])).1
  rw [h]
  simp +decide [sortJ, sortJE, sortJL, sortDict, List.insertionSort,
    List.orderedInsert, keyle]

end GitManager
